import Mathlib

/-!
Verification of the chunking / retrieval-composition core of a four-stage
RAG pipeline (scraper → preprocess → embed → chatbot).

The definitions below are a shallow embedding of the Python sources:

  * `clean_text`, `chunk_text`, `preprocess_scraped_data` from `preprocess.py`
  * the context composition line of `run_chatbot` from `chatbot.py`

Python machine-level details are modelled explicitly:

  * `pyIsSpace` models the ASCII portion of the regex class `\s`
    (Python also treats some further Unicode code points as whitespace;
    the properties proved here do not depend on the exact character set);
  * `pySplit` models `str.split()` with no arguments (split on whitespace
    runs, discarding empty fields);
  * `pyJoin` models `sep.join(list)`;
  * `pySlice` models `l[a:b]` on lists, including negative-index clamping;
  * the `while` loop of `chunk_text` is modelled with explicit fuel
    (`chunkLoop`), returning `none` when the fuel is exhausted, so that
    non-termination of the source loop is observable as `none` for every
    fuel value.
-/

namespace RagPipeline

/-- Whitespace test for the ASCII characters matched by Python's regex `\s`
and by `str.split()` / `str.strip()`: space, tab, newline, carriage return,
vertical tab, form feed. -/
def pyIsSpace (c : Char) : Bool :=
  c == ' ' || c == '\t' || c == '\n' || c == '\r' || c == '\x0b' || c == '\x0c'

/-- Model of `re.sub(r"\s+", " ", text)`: every maximal run of whitespace
characters is replaced by a single space.  The recursion emits the single
space at the last character of each run, which produces the same string. -/
def collapseWS : List Char → List Char
  | [] => []
  | c :: rest =>
    if pyIsSpace c then
      match rest with
      | [] => [' ']
      | d :: _ => if pyIsSpace d then collapseWS rest else ' ' :: collapseWS rest
    else
      c :: collapseWS rest

/-- Model of `str.strip()`: remove leading and trailing whitespace. -/
def pyStrip (l : List Char) : List Char :=
  ((l.dropWhile pyIsSpace).reverse.dropWhile pyIsSpace).reverse

/-- Model of `preprocess.clean_text`:
`if not text: return ""`, then `re.sub(r"\s+", " ", text).strip()`. -/
def clean_text (s : String) : String :=
  if s = "" then ""
  else ⟨pyStrip (collapseWS s.data)⟩

/-- Invariant of normalized text: every whitespace character in it is a
plain space. -/
def spacesOnly (l : List Char) : Prop :=
  ∀ c ∈ l, pyIsSpace c = true → c = ' '

/-- Invariant of normalized text: no two adjacent whitespace characters. -/
def noWSRun (l : List Char) : Prop :=
  List.Chain' (fun a b => ¬(pyIsSpace a = true ∧ pyIsSpace b = true)) l

/-- Accumulator worker for `pySplit`; `acc` holds the current word reversed. -/
def splitWSAux : List Char → List Char → List (List Char)
  | [], acc => if acc = [] then [] else [acc.reverse]
  | c :: rest, acc =>
    if pyIsSpace c then
      if acc = [] then splitWSAux rest [] else acc.reverse :: splitWSAux rest []
    else
      splitWSAux rest (c :: acc)

/-- Model of `str.split()` with no arguments: split on runs of whitespace,
discarding empty fields. -/
def pySplit (s : String) : List String :=
  (splitWSAux s.data []).map (fun l => ⟨l⟩)

/-- Model of `sep.join(parts)`. -/
def pyJoin (sep : String) : List String → String
  | [] => ""
  | [x] => x
  | x :: xs => x ++ sep ++ pyJoin sep xs

/-- Resolution of one Python slice index against a list length:
negative indices count from the end, and both ends are clamped. -/
def pyIndex (len : Nat) (i : Int) : Nat :=
  if i < 0 then (Int.toNat (len + i)) else min i.toNat len

/-- Model of the Python list slice `l[a:b]`. -/
def pySlice (l : List α) (a b : Int) : List α :=
  (l.take (pyIndex l.length b)).drop (pyIndex l.length a)

/-- Fuelled model of the `while start < len(words)` loop of
`preprocess.chunk_text`.  One unit of fuel is one loop iteration; `none`
means the fuel ran out before the loop condition became false. -/
def chunkLoop (words : List String) (chunk_size overlap : Int) :
    Nat → Int → Option (List String)
  | 0, _ => none
  | fuel + 1, start =>
    if start < (words.length : Int) then
      Option.map
        (fun rest =>
          if pySlice words start (start + chunk_size) = [] then rest
          else pyJoin " " (pySlice words start (start + chunk_size)) :: rest)
        (chunkLoop words chunk_size overlap fuel (start + (chunk_size - overlap)))
    else
      some []

/-- Model of `preprocess.chunk_text`.  The loop starts at `start = 0`; fuel
`words.length + 1` is sufficient for every terminating configuration (any
positive stride), so `none` is returned exactly on the configurations
whose source loop does not terminate this quickly. -/
def chunk_text (words : List String) (chunk_size overlap : Int) : Option (List String) :=
  chunkLoop words chunk_size overlap (words.length + 1) 0

/-- Reference form of the chunk list computed by `chunk_text` for a valid
configuration: starting at offset `n`, emit the window of `sz` words and
advance by the positive stride `dm1 + 1`. -/
def chunkListFrom (words : List String) (sz dm1 : Nat) (n : Nat) : List String :=
  if h : n < words.length then
    pyJoin " " ((words.drop n).take sz) :: chunkListFrom words sz dm1 (n + dm1 + 1)
  else []
termination_by words.length - n
decreasing_by omega

/-- One heading entry of a scraped page (`{tag, text}`); only `text` is read
by the preprocessor (`h["text"]`). -/
structure Heading where
  text : String
deriving DecidableEq, Repr

/-- One scraped page.  Fields are `Option`s because the Python code reads
them with `dict.get`, tolerating absent keys. -/
structure Page where
  page_url : Option String
  title : Option String
  headings : Option (List Heading)
  full_text : Option String
deriving DecidableEq, Repr

/-- The `site_pages` object of the scrape output. -/
structure SitePages where
  pages : Option (List Page)
deriving DecidableEq, Repr

/-- Top-level scrape output as read by the preprocessor. -/
structure RawData where
  source_url : Option String
  site_pages : Option SitePages
deriving DecidableEq, Repr

/-- One chunk-metadata record `{"page_url": ..., "chunk_index": ...}`. -/
structure ChunkMeta where
  page_url : Option String
  chunk_index : Nat
deriving DecidableEq, Repr

/-- The processed corpus returned by `preprocess_scraped_data`.  The
`processed_at` wall-clock timestamp of the source is outside the model. -/
structure Corpus where
  source_url : Option String
  chunk_size : Int
  overlap : Int
  total_chunks : Nat
  chunks : List String
  chunk_metadata : List ChunkMeta
deriving DecidableEq, Repr

/-- Model of `data.get("site_pages", {}).get("pages", [])`. -/
def pagesOf (data : RawData) : List Page :=
  match data.site_pages with
  | none => []
  | some sp => sp.pages.getD []

/-- Combined text signal of one page:
`clean_text(" ".join([title, " ".join(h["text"] ...), full_text]))`. -/
def combinedText (p : Page) : String :=
  clean_text (pyJoin " "
    [p.title.getD "", pyJoin " " ((p.headings.getD []).map Heading.text), p.full_text.getD ""])

/-- Per-page body of the loop in `preprocess_scraped_data`: the 40-word
quality filter (`continue` emits nothing), then `chunk_text`, then
`enumerate` producing `{page_url, chunk_index}` metadata. -/
def pageEntries (p : Page) (chunk_size overlap : Int) :
    Option (List String × List ChunkMeta) :=
  if (pySplit (combinedText p)).length < 40 then some ([], [])
  else
    match chunk_text (pySplit (combinedText p)) chunk_size overlap with
    | none => none
    | some chunks =>
      some (chunks, (List.range chunks.length).map (fun idx => ⟨p.page_url, idx⟩))

/-- The page loop of `preprocess_scraped_data`: chunks and metadata are
appended page by page, in page order. -/
def collectPages : List Page → Int → Int → Option (List String × List ChunkMeta)
  | [], _, _ => some ([], [])
  | p :: rest, chunk_size, overlap =>
    match pageEntries p chunk_size overlap, collectPages rest chunk_size overlap with
    | some (ch, m), some (chs, ms) => some (ch ++ chs, m ++ ms)
    | _, _ => none

/-- Model of `preprocess.preprocess_scraped_data`. -/
def preprocess_scraped_data (data : RawData) (chunk_size overlap : Int) : Option Corpus :=
  match collectPages (pagesOf data) chunk_size overlap with
  | none => none
  | some (chs, ms) =>
    some { source_url := data.source_url
           chunk_size := chunk_size
           overlap := overlap
           total_chunks := chs.length
           chunks := chs
           chunk_metadata := ms }

/-- A retrieved document as consumed by the chatbot loop. -/
structure Document where
  page_content : String
deriving DecidableEq, Repr

/-- Model of the context composition line of `chatbot.run_chatbot`:
`context = "\n\n".join(d.page_content for d in docs)`. -/
def composeContext (docs : List Document) : String :=
  pyJoin "\n\n" (docs.map Document.page_content)

/-- Modelled from the spec: the Retrieval Composer's output is the chunk
texts joined in their given rank order with a blank-line separator
(Section 4.4); no reordering and no deduplication. -/
def specContextJoin : List String → String
  | [] => ""
  | [t] => t
  | t :: ts => t ++ "\n\n" ++ specContextJoin ts

/-! ### Chunker theory -/

/-- A natural slice index resolves by clamping to the length. -/
theorem pyIndex_natCast (len n : Nat) : pyIndex len (n : Int) = min n len := by
  simp [pyIndex]

/-- When the slice starts inside the list at a natural index `n` and extends
a nonnegative amount `c`, `pySlice` is drop-then-take. -/
theorem pySlice_natCast (l : List α) (n : Nat) (c : Int) (hc : 0 ≤ c)
    (hn : n < l.length) :
    pySlice l (n : Int) ((n : Int) + c) = (l.drop n).take c.toNat := by
  have h1 : pyIndex l.length (n : Int) = n := by
    rw [pyIndex_natCast]; omega
  have h2 : pyIndex l.length ((n : Int) + c) = min (n + c.toNat) l.length := by
    unfold pyIndex
    rw [if_neg (by omega)]
    congr 1
    omega
  unfold pySlice
  rw [h1, h2, List.drop_take]
  by_cases hcase : n + c.toNat ≤ l.length
  · congr 1
    omega
  · have hm : min (n + c.toNat) l.length = l.length := by omega
    rw [hm]
    have hlen : (l.drop n).length = l.length - n := List.length_drop n l
    rw [List.take_of_length_le (by omega), List.take_of_length_le (by omega)]

/-- A slice of positive requested width starting inside the list is
nonempty. -/
theorem slice_ne_nil {l : List α} {n sz : Nat} (hsz : 0 < sz)
    (hn : n < l.length) : (l.drop n).take sz ≠ [] := by
  have h : ((l.drop n).take sz).length = min sz (l.length - n) := by
    rw [List.length_take, List.length_drop]
  intro hnil
  rw [hnil] at h
  simp at h
  omega

theorem chunkListFrom_pos {words : List String} {sz dm1 n : Nat}
    (h : n < words.length) :
    chunkListFrom words sz dm1 n =
      pyJoin " " ((words.drop n).take sz) :: chunkListFrom words sz dm1 (n + dm1 + 1) := by
  rw [chunkListFrom]
  exact dif_pos h

theorem chunkListFrom_neg {words : List String} {sz dm1 n : Nat}
    (h : ¬ n < words.length) : chunkListFrom words sz dm1 n = [] := by
  rw [chunkListFrom]
  exact dif_neg h

/-- With a positive stride (`overlap < chunk_size`) and enough fuel, the
fuelled loop computes the reference chunk list. -/
theorem chunkLoop_eq (words : List String) (cs ov : Int)
    (h0 : 0 ≤ ov) (h1 : ov < cs) :
    ∀ (fuel : Nat) (n : Nat), words.length - n < fuel →
      chunkLoop words cs ov fuel (n : Int) =
        some (chunkListFrom words cs.toNat ((cs - ov).toNat - 1) n) := by
  intro fuel
  induction fuel with
  | zero => intro n h; omega
  | succ fuel ih =>
    intro n hfuel
    by_cases hn : n < words.length
    · have hlt : (n : Int) < (words.length : Int) := by exact_mod_cast hn
      have harg : (n : Int) + (cs - ov) = ((n + (cs - ov).toNat : Nat) : Int) := by
        push_cast; omega
      have hslice : pySlice words (n : Int) ((n : Int) + cs) =
          (words.drop n).take cs.toNat :=
        pySlice_natCast words n cs (by omega) hn
      have hne : (words.drop n).take cs.toNat ≠ [] :=
        slice_ne_nil (by omega) hn
      rw [chunkLoop, if_pos hlt, harg, ih (n + (cs - ov).toNat) (by omega)]
      simp only [Option.map_some']
      rw [hslice, if_neg hne]
      have hstep : n + ((cs - ov).toNat - 1) + 1 = n + (cs - ov).toNat := by omega
      rw [chunkListFrom_pos hn, hstep]
    · have hlt : ¬ ((n : Int) < (words.length : Int)) := by exact_mod_cast hn
      rw [chunkLoop, if_neg hlt, chunkListFrom_neg hn]

/-- For a valid configuration, `chunk_text` succeeds and computes the
reference chunk list from offset 0. -/
theorem chunk_text_eq (words : List String) (cs ov : Int)
    (h0 : 0 ≤ ov) (h1 : ov < cs) :
    chunk_text words cs ov =
      some (chunkListFrom words cs.toNat ((cs - ov).toNat - 1) 0) := by
  have h := chunkLoop_eq words cs ov h0 h1 (words.length + 1) 0 (by omega)
  simpa [chunk_text] using h

/-- Offset `i` of the reference chunk list exists iff the `i`-th window
start is inside the input. -/
theorem chunkListFrom_length_iff (words : List String) (sz dm1 : Nat) :
    ∀ (i n : Nat),
      (i < (chunkListFrom words sz dm1 n).length ↔
        n + i * (dm1 + 1) < words.length) := by
  intro i
  induction i with
  | zero =>
    intro n
    by_cases hn : n < words.length
    · rw [chunkListFrom_pos hn]
      simp only [List.length_cons, Nat.zero_mul, Nat.add_zero]
      omega
    · rw [chunkListFrom_neg hn]
      simp only [List.length_nil, Nat.zero_mul, Nat.add_zero]
      omega
  | succ i ih =>
    intro n
    by_cases hn : n < words.length
    · rw [chunkListFrom_pos hn]
      have h := ih (n + dm1 + 1)
      have harith : n + dm1 + 1 + i * (dm1 + 1) = n + (i + 1) * (dm1 + 1) := by
        rw [Nat.succ_mul]
        omega
      rw [harith] at h
      simpa [Nat.succ_lt_succ_iff] using h
    · rw [chunkListFrom_neg hn]
      constructor
      · intro h
        simp at h
      · intro h
        exfalso
        have : n ≤ n + (i + 1) * (dm1 + 1) := Nat.le_add_right _ _
        omega

/-- The chunk at offset `i` of the reference chunk list is the window of
`sz` words starting at `n + i * stride`, joined with single spaces; past
the last window start the list has no entry. -/
theorem chunkListFrom_getElem? (words : List String) (sz dm1 : Nat) :
    ∀ (i n : Nat),
      (chunkListFrom words sz dm1 n)[i]? =
        if n + i * (dm1 + 1) < words.length
        then some (pyJoin " " ((words.drop (n + i * (dm1 + 1))).take sz))
        else none := by
  intro i
  induction i with
  | zero =>
    intro n
    by_cases hn : n < words.length
    · rw [chunkListFrom_pos hn, if_pos (by simpa using hn)]
      simp
    · rw [chunkListFrom_neg hn, if_neg (by simpa using hn)]
      simp
  | succ i ih =>
    intro n
    by_cases hn : n < words.length
    · rw [chunkListFrom_pos hn]
      have harith : n + dm1 + 1 + i * (dm1 + 1) = n + (i + 1) * (dm1 + 1) := by
        rw [Nat.succ_mul]
        omega
      rw [List.getElem?_cons_succ, ih (n + dm1 + 1), harith]
    · rw [chunkListFrom_neg hn]
      have hge : ¬ (n + (i + 1) * (dm1 + 1) < words.length) := by
        have h1 : n ≤ n + (i + 1) * (dm1 + 1) := Nat.le_add_right _ _
        omega
      rw [if_neg hge]
      simp

/-- With a non-positive stride (`chunk_size <= overlap`) and a non-empty
input, the loop condition stays true forever: the loop consumes every
amount of fuel without finishing. -/
theorem chunkLoop_none_of_nonpos (words : List String) (cs ov : Int)
    (hov : cs ≤ ov) (hne : 0 < words.length) :
    ∀ (fuel : Nat) (start : Int), start ≤ 0 →
      chunkLoop words cs ov fuel start = none := by
  intro fuel
  induction fuel with
  | zero => intro start _; rfl
  | succ fuel ih =>
    intro start hstart
    have hlen : (0 : Int) < (words.length : Int) := by exact_mod_cast hne
    rw [chunkLoop, if_pos (by omega), ih (start + (cs - ov)) (by omega)]
    rfl

/-! ### Claims about the Chunker -/

/-- C1: for every word sequence of length `N` and parameters `S`, `O` with
`0 ≤ O < S`, chunk `i` of `chunk_text` is exactly the words in index range
`[i*(S-O), i*(S-O)+S)` (clamped to the input length) rejoined with single
spaces, a chunk exists exactly while its start offset `i*(S-O)` is below
`N` (so consecutive start offsets differ by exactly `S-O` and chunking
stops once the start offset reaches `N`), and every original word index is
covered by at least one chunk's range. -/
theorem C1_chunker_window_structure (words : List String) (S O : Nat) (hO : O < S) :
    ∃ cs, chunk_text words (S : Int) (O : Int) = some cs ∧
      (∀ i : Nat, cs[i]? =
        if i * (S - O) < words.length
        then some (pyJoin " " ((words.drop (i * (S - O))).take S))
        else none) ∧
      (∀ i : Nat, i < cs.length ↔ i * (S - O) < words.length) ∧
      (∀ j, j < words.length → ∃ i, i * (S - O) < words.length ∧
        i * (S - O) ≤ j ∧ j < i * (S - O) + S) := by
  have h0 : (0 : Int) ≤ (O : Int) := by exact_mod_cast Nat.zero_le O
  have h1 : (O : Int) < (S : Int) := by exact_mod_cast hO
  have htext := chunk_text_eq words (S : Int) (O : Int) h0 h1
  have hS : ((S : Int)).toNat = S := by omega
  have hd : (((S : Int) - (O : Int)).toNat) = S - O := by omega
  rw [hS, hd] at htext
  have hstep : S - O - 1 + 1 = S - O := by omega
  refine ⟨chunkListFrom words S (S - O - 1) 0, htext, ?_, ?_, ?_⟩
  · intro i
    have h := chunkListFrom_getElem? words S (S - O - 1) i 0
    rw [hstep] at h
    simpa using h
  · intro i
    have h := chunkListFrom_length_iff words S (S - O - 1) i 0
    rw [hstep] at h
    simpa using h
  · intro j hj
    refine ⟨j / (S - O), ?_, ?_, ?_⟩
    · exact Nat.lt_of_le_of_lt (Nat.div_mul_le_self j (S - O)) hj
    · exact Nat.div_mul_le_self j (S - O)
    · have hdpos : 0 < S - O := by omega
      have hmod : j % (S - O) < S - O := Nat.mod_lt _ hdpos
      have hsplit : j % (S - O) + (S - O) * (j / (S - O)) = j := Nat.mod_add_div j (S - O)
      have hSle : S - O ≤ S := Nat.sub_le S O
      calc j = j % (S - O) + (S - O) * (j / (S - O)) := hsplit.symm
        _ < (S - O) + (S - O) * (j / (S - O)) :=
            Nat.add_lt_add_right hmod _
        _ = j / (S - O) * (S - O) + (S - O) := by ring
        _ ≤ j / (S - O) * (S - O) + S := Nat.add_le_add_left hSle _

/-- Witness for C1 at `words = ["a","b","c"]`, `S = 2`, `O = 1`. -/
theorem C1_chunker_window_structure_witness :
    ∃ cs, chunk_text ["a", "b", "c"] ((2 : Nat) : Int) ((1 : Nat) : Int) = some cs ∧
      (∀ i : Nat, cs[i]? =
        if i * (2 - 1) < (["a", "b", "c"] : List String).length
        then some (pyJoin " " (((["a", "b", "c"] : List String).drop (i * (2 - 1))).take 2))
        else none) ∧
      (∀ i : Nat, i < cs.length ↔ i * (2 - 1) < (["a", "b", "c"] : List String).length) ∧
      (∀ j, j < (["a", "b", "c"] : List String).length →
        ∃ i, i * (2 - 1) < (["a", "b", "c"] : List String).length ∧
          i * (2 - 1) ≤ j ∧ j < i * (2 - 1) + 2) :=
  C1_chunker_window_structure ["a", "b", "c"] 2 1 (by decide)

/-- C2 (behaviour of the code at the claimed configuration): with
`overlap ≥ chunk_size` and a non-empty word list the loop of `chunk_text`
never finishes — it returns `none` for every amount of fuel — instead of
failing fast with a configuration error. -/
theorem C2_chunker_diverges_on_invalid_overlap (words : List String)
    (cs ov : Int) (hne : words ≠ []) (hov : cs ≤ ov) :
    (∀ fuel : Nat, chunkLoop words cs ov fuel 0 = none) ∧
      chunk_text words cs ov = none := by
  have hlen : 0 < words.length := List.length_pos.mpr hne
  exact ⟨fun fuel => chunkLoop_none_of_nonpos words cs ov hov hlen fuel 0 le_rfl,
    chunkLoop_none_of_nonpos words cs ov hov hlen _ 0 le_rfl⟩

/-- Witness for C2 at `words = ["a"]`, `chunk_size = 2`, `overlap = 2`. -/
theorem C2_chunker_diverges_on_invalid_overlap_witness :
    chunkLoop ["a"] 2 2 7 0 = none ∧ chunk_text ["a"] 2 2 = none :=
  ⟨(C2_chunker_diverges_on_invalid_overlap ["a"] 2 2 (by decide) (by decide)).1 7,
    (C2_chunker_diverges_on_invalid_overlap ["a"] 2 2 (by decide) (by decide)).2⟩

/-- C3 counterexample: the input `["a","b","c","d","e"]` has length `5 < 10 = S`
and the overlap `O = 8` satisfies `0 ≤ O < S`, yet `chunk_text` produces
three chunks (stride `S - O = 2`), not one chunk equal to the whole
space-joined input. -/
theorem C3_short_input_counterexample :
    (["a", "b", "c", "d", "e"] : List String).length < 10 ∧
    (0 : Nat) ≤ 8 ∧ (8 : Nat) < 10 ∧
    chunk_text ["a", "b", "c", "d", "e"] 10 8 =
      some ["a b c d e", "c d e", "e"] ∧
    chunk_text ["a", "b", "c", "d", "e"] 10 8 ≠
      some [pyJoin " " ["a", "b", "c", "d", "e"]] := by decide

/-- C3 amended: for every non-empty word sequence whose length is at most
the stride `S - O` (with `0 ≤ O < S`), the Chunker produces exactly one
chunk, whose text equals the whole input rejoined with single spaces. -/
theorem C3_single_chunk_short_input (words : List String) (S O : Nat)
    (hO : O < S) (hne : words ≠ []) (hlen : words.length ≤ S - O) :
    chunk_text words (S : Int) (O : Int) = some [pyJoin " " words] := by
  have h0 : (0 : Int) ≤ (O : Int) := by exact_mod_cast Nat.zero_le O
  have h1 : (O : Int) < (S : Int) := by exact_mod_cast hO
  have hpos : 0 < words.length := List.length_pos.mpr hne
  rw [chunk_text_eq words (S : Int) (O : Int) h0 h1]
  have hS : ((S : Int)).toNat = S := by omega
  have hd : (((S : Int) - (O : Int)).toNat) = S - O := by omega
  rw [hS, hd, chunkListFrom_pos hpos]
  have hstep : 0 + (S - O - 1) + 1 = S - O := by omega
  rw [hstep, chunkListFrom_neg (by omega), List.drop_zero,
    List.take_of_length_le (by omega)]

/-- Witness for the amended C3 at `words = ["a","b"]`, `S = 5`, `O = 2`. -/
theorem C3_single_chunk_short_input_witness :
    chunk_text ["a", "b"] ((5 : Nat) : Int) ((2 : Nat) : Int) =
      some [pyJoin " " ["a", "b"]] :=
  C3_single_chunk_short_input ["a", "b"] 5 2 (by decide) (by decide) (by decide)

/-- C10: for every word sequence and every `0 ≤ O < S`, the fuelled model
of the Chunker's loop completes within its fuel budget — the loop is
well-founded because each iteration advances the start offset by the
positive stride `S - O`. -/
theorem C10_chunker_terminates (words : List String) (S O : Nat) (hO : O < S) :
    (chunk_text words (S : Int) (O : Int)).isSome := by
  rw [chunk_text_eq words (S : Int) (O : Int)
    (by exact_mod_cast Nat.zero_le O) (by exact_mod_cast hO)]
  rfl

/-- Witness for C10 at `words = ["x","y","z","w"]`, `S = 3`, `O = 1`. -/
theorem C10_chunker_terminates_witness :
    (chunk_text ["x", "y", "z", "w"] ((3 : Nat) : Int) ((1 : Nat) : Int)).isSome :=
  C10_chunker_terminates ["x", "y", "z", "w"] 3 1 (by decide)

/-! ### Page Aggregator theory -/

/-- For a valid configuration, the per-page step always succeeds, and its
metadata is the enumeration of its chunks for this page's URL. -/
theorem pageEntries_eq (p : Page) (S O : Nat) (hO : O < S) :
    ∃ ch, pageEntries p (S : Int) (O : Int) =
      some (ch, (List.range ch.length).map (fun idx => ⟨p.page_url, idx⟩)) := by
  unfold pageEntries
  by_cases hlt : (pySplit (combinedText p)).length < 40
  · rw [if_pos hlt]
    exact ⟨[], by simp⟩
  · rw [if_neg hlt,
      chunk_text_eq (pySplit (combinedText p)) (S : Int) (O : Int)
        (by exact_mod_cast Nat.zero_le O) (by exact_mod_cast hO)]
    exact ⟨_, rfl⟩

/-- For a valid configuration the page loop always succeeds; the chunk
stream is a concatenation of per-page chunk lists and the metadata stream
is the matching concatenation of per-page enumerations. -/
theorem collectPages_eq (ps : List Page) (S O : Nat) (hO : O < S) :
    ∃ pcs : List (List String), pcs.length = ps.length ∧
      collectPages ps (S : Int) (O : Int) =
        some (pcs.flatten,
          ((ps.zip pcs).map (fun pc =>
            (List.range pc.2.length).map (fun idx =>
              ChunkMeta.mk pc.1.page_url idx))).flatten) := by
  induction ps with
  | nil => exact ⟨[], rfl, rfl⟩
  | cons p rest ih =>
    obtain ⟨pcs, hlen, hrest⟩ := ih
    obtain ⟨ch, hch⟩ := pageEntries_eq p S O hO
    refine ⟨ch :: pcs, by simp [hlen], ?_⟩
    simp only [collectPages, hch, hrest, List.zip_cons_cons, List.map_cons,
      List.flatten_cons]

/-- The concatenated metadata has the same length as the concatenated
chunks, page by page. -/
theorem metaBlocks_length (ps : List Page) (pcs : List (List String))
    (hlen : pcs.length = ps.length) :
    (((ps.zip pcs).map (fun pc =>
      (List.range pc.2.length).map (fun idx =>
        ChunkMeta.mk pc.1.page_url idx))).flatten).length = pcs.flatten.length := by
  induction ps generalizing pcs with
  | nil =>
    cases pcs with
    | nil => rfl
    | cons ch pcs' => simp at hlen
  | cons p rest ih =>
    cases pcs with
    | nil => simp at hlen
    | cons ch pcs' =>
      have h' : pcs'.length = rest.length := by simpa using hlen
      simp [ih pcs' h']

/-! ### Claims about the Page Aggregator -/

/-- C4: for every input and every valid `(S, O)`, the produced corpus
satisfies `chunks.length = chunk_metadata.length = total_chunks`, and the
metadata stream decomposes, page by page and parallel to the chunk stream,
into blocks that carry the producing page's URL with chunk indices
enumerated contiguously from 0. -/
theorem C4_corpus_parallel_invariants (data : RawData) (S O : Nat) (hO : O < S) :
    ∃ corpus, preprocess_scraped_data data (S : Int) (O : Int) = some corpus ∧
      corpus.chunks.length = corpus.total_chunks ∧
      corpus.chunk_metadata.length = corpus.total_chunks ∧
      ∃ pcs : List (List String), pcs.length = (pagesOf data).length ∧
        corpus.chunks = pcs.flatten ∧
        corpus.chunk_metadata =
          (((pagesOf data).zip pcs).map (fun pc =>
            (List.range pc.2.length).map (fun idx =>
              ChunkMeta.mk pc.1.page_url idx))).flatten := by
  obtain ⟨pcs, hlen, hcoll⟩ := collectPages_eq (pagesOf data) S O hO
  unfold preprocess_scraped_data
  rw [hcoll]
  exact ⟨_, rfl, rfl, metaBlocks_length (pagesOf data) pcs hlen, pcs, hlen,
    rfl, rfl⟩

/-- Witness for C4 at a one-page input with `S = 2`, `O = 1`. -/
theorem C4_corpus_parallel_invariants_witness :
    ∃ corpus,
      preprocess_scraped_data
        ⟨some "https://e.com", some ⟨some [⟨some "https://e.com/a", some "T",
          none, some "b"⟩]⟩⟩ ((2 : Nat) : Int) ((1 : Nat) : Int) = some corpus ∧
      corpus.chunks.length = corpus.total_chunks ∧
      corpus.chunk_metadata.length = corpus.total_chunks ∧
      ∃ pcs : List (List String),
        pcs.length = (pagesOf ⟨some "https://e.com", some ⟨some [⟨some "https://e.com/a",
          some "T", none, some "b"⟩]⟩⟩).length ∧
        corpus.chunks = pcs.flatten ∧
        corpus.chunk_metadata =
          (((pagesOf ⟨some "https://e.com", some ⟨some [⟨some "https://e.com/a",
            some "T", none, some "b"⟩]⟩⟩).zip pcs).map (fun pc =>
            (List.range pc.2.length).map (fun idx =>
              ChunkMeta.mk pc.1.page_url idx))).flatten :=
  C4_corpus_parallel_invariants
    ⟨some "https://e.com", some ⟨some [⟨some "https://e.com/a", some "T",
      none, some "b"⟩]⟩⟩ 2 1 (by decide)

/-- C5: under a valid configuration, a page whose combined normalized text
has fewer than 40 words contributes zero chunks to the corpus, and a page
with exactly 40 words contributes at least one chunk. -/
theorem C5_min_word_filter (p : Page) (u : Option String) (S O : Nat)
    (hO : O < S) :
    ((pySplit (combinedText p)).length < 40 →
      ∃ corpus,
        preprocess_scraped_data ⟨u, some ⟨some [p]⟩⟩ (S : Int) (O : Int) =
          some corpus ∧ corpus.total_chunks = 0) ∧
    ((pySplit (combinedText p)).length = 40 →
      ∃ corpus,
        preprocess_scraped_data ⟨u, some ⟨some [p]⟩⟩ (S : Int) (O : Int) =
          some corpus ∧ 0 < corpus.total_chunks) := by
  have hpages : pagesOf ⟨u, some ⟨some [p]⟩⟩ = [p] := rfl
  constructor
  · intro hlt
    have hpe : pageEntries p (S : Int) (O : Int) = some ([], []) := by
      unfold pageEntries
      rw [if_pos hlt]
    have hcoll : collectPages [p] (S : Int) (O : Int) = some ([], []) := by
      simp only [collectPages, hpe, List.append_nil]
    refine ⟨⟨u, (S : Int), (O : Int), 0, [], []⟩, ?_, rfl⟩
    unfold preprocess_scraped_data
    rw [hpages, hcoll]
    rfl
  · intro h40
    have hwords : 0 < (pySplit (combinedText p)).length := by omega
    have hpe : pageEntries p (S : Int) (O : Int) =
        some (chunkListFrom (pySplit (combinedText p)) ((S : Int)).toNat
            ((((S : Int)) - ((O : Int))).toNat - 1) 0,
          (List.range (chunkListFrom (pySplit (combinedText p)) ((S : Int)).toNat
            ((((S : Int)) - ((O : Int))).toNat - 1) 0).length).map
            (fun idx => ⟨p.page_url, idx⟩)) := by
      unfold pageEntries
      rw [if_neg (by omega),
        chunk_text_eq (pySplit (combinedText p)) (S : Int) (O : Int)
          (by exact_mod_cast Nat.zero_le O) (by exact_mod_cast hO)]
    have hcoll : collectPages [p] (S : Int) (O : Int) =
        some (chunkListFrom (pySplit (combinedText p)) ((S : Int)).toNat
            ((((S : Int)) - ((O : Int))).toNat - 1) 0,
          (List.range (chunkListFrom (pySplit (combinedText p)) ((S : Int)).toNat
            ((((S : Int)) - ((O : Int))).toNat - 1) 0).length).map
            (fun idx => ⟨p.page_url, idx⟩)) := by
      simp only [collectPages, hpe, List.append_nil]
    refine ⟨⟨u, (S : Int), (O : Int),
      (chunkListFrom (pySplit (combinedText p)) ((S : Int)).toNat
        ((((S : Int)) - ((O : Int))).toNat - 1) 0).length,
      chunkListFrom (pySplit (combinedText p)) ((S : Int)).toNat
        ((((S : Int)) - ((O : Int))).toNat - 1) 0,
      (List.range (chunkListFrom (pySplit (combinedText p)) ((S : Int)).toNat
        ((((S : Int)) - ((O : Int))).toNat - 1) 0).length).map
        (fun idx => ⟨p.page_url, idx⟩)⟩, ?_, ?_⟩
    · unfold preprocess_scraped_data
      rw [hpages, hcoll]
    · show 0 < (chunkListFrom (pySplit (combinedText p)) ((S : Int)).toNat
        ((((S : Int)) - ((O : Int))).toNat - 1) 0).length
      rw [chunkListFrom_pos hwords]
      simp

/-- Witness for C5 at a page with exactly 40 words and `S = 250`, `O = 40`:
the page contributes at least one chunk. -/
theorem C5_min_word_filter_witness :
    ((pySplit (combinedText ⟨some "https://e.com/w", none, none,
        some (pyJoin " " (List.replicate 40 "w"))⟩)).length < 40 →
      ∃ corpus,
        preprocess_scraped_data ⟨none, some ⟨some [⟨some "https://e.com/w", none, none,
          some (pyJoin " " (List.replicate 40 "w"))⟩]⟩⟩
          ((250 : Nat) : Int) ((40 : Nat) : Int) =
          some corpus ∧ corpus.total_chunks = 0) ∧
    ((pySplit (combinedText ⟨some "https://e.com/w", none, none,
        some (pyJoin " " (List.replicate 40 "w"))⟩)).length = 40 →
      ∃ corpus,
        preprocess_scraped_data ⟨none, some ⟨some [⟨some "https://e.com/w", none, none,
          some (pyJoin " " (List.replicate 40 "w"))⟩]⟩⟩
          ((250 : Nat) : Int) ((40 : Nat) : Int) =
          some corpus ∧ 0 < corpus.total_chunks) :=
  C5_min_word_filter ⟨some "https://e.com/w", none, none,
    some (pyJoin " " (List.replicate 40 "w"))⟩ none 250 40 (by decide)

set_option maxRecDepth 20000 in
/-- C6: for the single page titled `"Pricing"` with no headings and body
`"word "` repeated 100 times, processed with `S = 250`, `O = 40`, the
combined normalized text has 101 words and exactly one chunk covering all
101 words is produced, with `chunk_index = 0`. -/
theorem C6_pricing_end_to_end :
    (pySplit (combinedText ⟨some "https://example.com/pricing", some "Pricing",
      none, some (String.join (List.replicate 100 "word "))⟩)).length = 101 ∧
    preprocess_scraped_data
      ⟨some "https://example.com", some ⟨some [⟨some "https://example.com/pricing",
        some "Pricing", none, some (String.join (List.replicate 100 "word "))⟩]⟩⟩
      250 40 =
      some ⟨some "https://example.com", 250, 40, 1,
        [pyJoin " " ("Pricing" :: List.replicate 100 "word")],
        [⟨some "https://example.com/pricing", 0⟩]⟩ := by decide

/-- C9 counterexample: on the input `{}` — the `site_pages` key missing —
the Page Aggregator does not fail: it succeeds and returns an empty corpus
(`total_chunks = 0`). -/
theorem C9_missing_keys_tolerated :
    preprocess_scraped_data ⟨none, none⟩ 250 40 =
      some ⟨none, 250, 40, 0, [], []⟩ ∧
    preprocess_scraped_data ⟨none, none⟩ 250 40 ≠ none := by decide

/-- C9 amended: when the `site_pages` key or the `pages` key is missing,
the Page Aggregator silently treats the input as an empty page list and
returns a successful corpus with zero chunks (the zero-chunk condition is
only rejected downstream, by the embedding stage). -/
theorem C9_missing_keys_empty_corpus (data : RawData) (cs ov : Int)
    (h : data.site_pages = none ∨
      ∃ sp, data.site_pages = some sp ∧ sp.pages = none) :
    preprocess_scraped_data data cs ov =
      some ⟨data.source_url, cs, ov, 0, [], []⟩ := by
  have hp : pagesOf data = [] := by
    rcases h with h | ⟨sp, h1, h2⟩
    · unfold pagesOf
      rw [h]
    · unfold pagesOf
      rw [h1]
      show sp.pages.getD [] = []
      rw [h2]
      rfl
  unfold preprocess_scraped_data
  rw [hp]
  rfl

/-- Witness for the amended C9 at an input whose `site_pages` object lacks
the `pages` key. -/
theorem C9_missing_keys_empty_corpus_witness :
    preprocess_scraped_data ⟨some "https://e.com", some ⟨none⟩⟩ 250 40 =
      some ⟨some "https://e.com", 250, 40, 0, [], []⟩ :=
  C9_missing_keys_empty_corpus ⟨some "https://e.com", some ⟨none⟩⟩ 250 40
    (Or.inr ⟨⟨none⟩, rfl, rfl⟩)

/-! ### Text Normalizer theory -/

theorem collapseWS_cons_nonspace {c : Char} (h : pyIsSpace c = false)
    (t : List Char) : collapseWS (c :: t) = c :: collapseWS t := by
  simp [collapseWS, h]

/-- Every whitespace character in the output of `collapseWS` is a plain
space. -/
theorem collapseWS_spacesOnly (l : List Char) : spacesOnly (collapseWS l) := by
  induction l with
  | nil => intro x hx hxs; simp [collapseWS] at hx
  | cons c rest ih =>
    by_cases hc : pyIsSpace c = true
    · cases rest with
      | nil =>
        intro x hx hxs
        have heq : collapseWS [c] = [' '] := by simp [collapseWS, hc]
        rw [heq] at hx
        simp at hx
        rw [hx]
      | cons d t =>
        by_cases hd : pyIsSpace d = true
        · have heq : collapseWS (c :: d :: t) = collapseWS (d :: t) := by
            simp [collapseWS, hc, hd]
          rw [heq]
          exact ih
        · have heq : collapseWS (c :: d :: t) = ' ' :: collapseWS (d :: t) := by
            simp [collapseWS, hc, hd]
          rw [heq]
          intro x hx hxs
          rcases List.mem_cons.mp hx with h1 | h2
          · rw [h1]
          · exact ih x h2 hxs
    · rw [collapseWS_cons_nonspace (by simpa using hc)]
      intro x hx hxs
      rcases List.mem_cons.mp hx with h1 | h2
      · exact absurd (h1 ▸ hxs) hc
      · exact ih x h2 hxs

/-- The output of `collapseWS` has no two adjacent whitespace characters. -/
theorem collapseWS_noWSRun (l : List Char) : noWSRun (collapseWS l) := by
  induction l with
  | nil => simp [collapseWS, noWSRun]
  | cons c rest ih =>
    by_cases hc : pyIsSpace c = true
    · cases rest with
      | nil =>
        have heq : collapseWS [c] = [' '] := by simp [collapseWS, hc]
        rw [noWSRun, heq]
        exact List.chain'_singleton _
      | cons d t =>
        by_cases hd : pyIsSpace d = true
        · have heq : collapseWS (c :: d :: t) = collapseWS (d :: t) := by
            simp [collapseWS, hc, hd]
          rw [noWSRun, heq]
          exact ih
        · have heq : collapseWS (c :: d :: t) = ' ' :: collapseWS (d :: t) := by
            simp [collapseWS, hc, hd]
          rw [noWSRun, heq, List.chain'_cons']
          refine ⟨?_, ih⟩
          intro y hy
          have hdt : collapseWS (d :: t) = d :: collapseWS t :=
            collapseWS_cons_nonspace (by simpa using hd) t
          rw [hdt] at hy
          simp at hy
          subst hy
          intro hcon
          exact (by simpa using hd : ¬ pyIsSpace d = true) hcon.2
    · rw [noWSRun, collapseWS_cons_nonspace (by simpa using hc),
        List.chain'_cons']
      refine ⟨?_, ih⟩
      intro y _ hcon
      exact hc hcon.1

/-- Membership passes from `pyStrip l` back to `l`. -/
theorem mem_pyStrip {l : List Char} {c : Char} (h : c ∈ pyStrip l) : c ∈ l := by
  unfold pyStrip at h
  rw [List.mem_reverse] at h
  have h2 : c ∈ (l.dropWhile pyIsSpace).reverse :=
    (List.dropWhile_sublist _).subset h
  rw [List.mem_reverse] at h2
  exact (List.dropWhile_sublist _).subset h2

theorem pyStrip_spacesOnly {l : List Char} (h : spacesOnly l) :
    spacesOnly (pyStrip l) :=
  fun c hc hcs => h c (mem_pyStrip hc) hcs

theorem chain_dropWhile {R : α → α → Prop} (p : α → Bool) {l : List α}
    (h : List.Chain' R l) : List.Chain' R (l.dropWhile p) := by
  induction l with
  | nil => simp
  | cons c t ih =>
    by_cases hp : p c = true
    · rw [List.dropWhile_cons_of_pos hp]
      exact ih h.tail
    · rw [List.dropWhile_cons_of_neg (by simpa using hp)]
      exact h

theorem noWSRun_reverse {l : List Char} (h : noWSRun l) : noWSRun l.reverse := by
  rw [noWSRun, List.chain'_reverse]
  exact h.imp (fun a b hab hc => hab ⟨hc.2, hc.1⟩)

theorem pyStrip_noWSRun {l : List Char} (h : noWSRun l) : noWSRun (pyStrip l) :=
  noWSRun_reverse (chain_dropWhile _ (noWSRun_reverse (chain_dropWhile _ h)))

/-- The first element surviving `dropWhile p`, if any, fails `p`. -/
theorem head_dropWhile_false (p : α → Bool) (l : List α) :
    ∀ x ∈ (l.dropWhile p).head?, p x = false := by
  induction l with
  | nil => simp
  | cons c t ih =>
    by_cases hp : p c = true
    · rw [List.dropWhile_cons_of_pos hp]
      exact ih
    · rw [List.dropWhile_cons_of_neg (by simpa using hp)]
      intro x hx
      simp at hx
      rw [← hx]
      simpa using hp

/-- The head of a stripped string is not whitespace. -/
theorem pyStrip_head (l : List Char) :
    ∀ x ∈ (pyStrip l).head?, pyIsSpace x = false := by
  intro x hx
  have hx' : ∃ t, pyStrip l = x :: t := by
    cases hps : pyStrip l with
    | nil => rw [hps] at hx; simp at hx
    | cons y t =>
      rw [hps] at hx
      simp at hx
      exact ⟨t, by rw [hx]⟩
  obtain ⟨t, ht⟩ := hx'
  have hdecomp :=
    List.takeWhile_append_dropWhile (p := pyIsSpace)
      (l := (l.dropWhile pyIsSpace).reverse)
  have ha2 : l.dropWhile pyIsSpace =
      pyStrip l ++ ((l.dropWhile pyIsSpace).reverse.takeWhile pyIsSpace).reverse := by
    rw [show pyStrip l = ((l.dropWhile pyIsSpace).reverse.dropWhile pyIsSpace).reverse
        from rfl,
      ← List.reverse_append, hdecomp, List.reverse_reverse]
  have hahead : (l.dropWhile pyIsSpace).head? = some x := by
    rw [ha2, ht]
    rfl
  exact head_dropWhile_false pyIsSpace l x (by simp [hahead])

/-- The last character of a stripped string is not whitespace. -/
theorem pyStrip_last (l : List Char) :
    ∀ x ∈ (pyStrip l).getLast?, pyIsSpace x = false := by
  intro x hx
  rw [show pyStrip l = ((l.dropWhile pyIsSpace).reverse.dropWhile pyIsSpace).reverse
      from rfl, List.getLast?_reverse] at hx
  exact head_dropWhile_false _ _ x hx

theorem dropWhile_eq_self_of_head {p : α → Bool} {l : List α}
    (h : ∀ x ∈ l.head?, p x = false) : l.dropWhile p = l := by
  cases l with
  | nil => rfl
  | cons c t =>
    have hc : p c = false := h c rfl
    rw [List.dropWhile_cons_of_neg (by simp [hc])]

/-- Stripping is the identity on a string with non-whitespace ends. -/
theorem pyStrip_eq_self {l : List Char}
    (hh : ∀ x ∈ l.head?, pyIsSpace x = false)
    (hl : ∀ x ∈ l.getLast?, pyIsSpace x = false) : pyStrip l = l := by
  unfold pyStrip
  rw [dropWhile_eq_self_of_head hh,
    dropWhile_eq_self_of_head (by rw [List.head?_reverse]; exact hl),
    List.reverse_reverse]

/-- Collapsing is the identity on a string whose whitespace is single
plain spaces. -/
theorem collapseWS_eq_self {l : List Char} (h1 : spacesOnly l)
    (h2 : noWSRun l) : collapseWS l = l := by
  induction l with
  | nil => rfl
  | cons c rest ih =>
    by_cases hc : pyIsSpace c = true
    · have hcsp : c = ' ' := h1 c (List.mem_cons_self c rest) hc
      cases rest with
      | nil =>
        rw [hcsp]
        rfl
      | cons d t =>
        have hRcd := (List.chain'_cons'.mp h2).1 d rfl
        have hd : pyIsSpace d = false := by
          by_contra hdc
          exact hRcd ⟨hc, by simpa using hdc⟩
        have heq : collapseWS (c :: d :: t) = ' ' :: collapseWS (d :: t) := by
          simp [collapseWS, hc, hd]
        rw [heq, ih (fun x hx hxs => h1 x (List.mem_cons_of_mem c hx) hxs)
          (List.Chain'.tail h2), hcsp]
    · rw [collapseWS_cons_nonspace (by simpa using hc)]
      rw [ih (fun x hx hxs => h1 x (List.mem_cons_of_mem c hx) hxs)
        (List.Chain'.tail h2)]

/-! ### Claims about the Text Normalizer and the Retrieval Composer -/

/-- C8: applying the Text Normalizer twice yields the same result as
applying it once, for all strings. -/
theorem C8_clean_text_idempotent (s : String) :
    clean_text (clean_text s) = clean_text s := by
  by_cases hs : s = ""
  · rw [hs]
    rfl
  · have h1 : clean_text s = ⟨pyStrip (collapseWS s.data)⟩ := by
      unfold clean_text
      rw [if_neg hs]
    rw [h1]
    by_cases hre : (⟨pyStrip (collapseWS s.data)⟩ : String) = ""
    · rw [hre]
      rfl
    · unfold clean_text
      rw [if_neg hre]
      congr 1
      have hso : spacesOnly (pyStrip (collapseWS s.data)) :=
        pyStrip_spacesOnly (collapseWS_spacesOnly s.data)
      have hnr : noWSRun (pyStrip (collapseWS s.data)) :=
        pyStrip_noWSRun (collapseWS_noWSRun s.data)
      rw [show String.data ⟨pyStrip (collapseWS s.data)⟩ =
          pyStrip (collapseWS s.data) from rfl,
        collapseWS_eq_self hso hnr,
        pyStrip_eq_self (pyStrip_head (collapseWS s.data))
          (pyStrip_last (collapseWS s.data))]

theorem pyJoin_cons_cons (sep x y : String) (rest : List String) :
    pyJoin sep (x :: y :: rest) = x ++ sep ++ pyJoin sep (y :: rest) := rfl

/-- C7: the Retrieval Composer's context equals the chunk texts joined in
their given rank order with a blank-line separator — matching the
spec-modelled composition — with no reordering and no deduplication; in
particular `["A","B","C"]` composes to `"A\n\nB\n\nC"` and duplicates
survive. -/
theorem C7_context_composition :
    (∀ docs : List Document,
      composeContext docs = specContextJoin (docs.map Document.page_content)) ∧
    composeContext [⟨"A"⟩, ⟨"B"⟩, ⟨"C"⟩] = "A\n\nB\n\nC" ∧
    composeContext [⟨"A"⟩, ⟨"A"⟩] = "A\n\nA" := by
  refine ⟨?_, by decide, by decide⟩
  intro docs
  unfold composeContext
  generalize docs.map Document.page_content = l
  induction l with
  | nil => rfl
  | cons x xs ih =>
    cases xs with
    | nil => rfl
    | cons y rest =>
      rw [pyJoin_cons_cons, ih]
      rfl

-- Sanity checks on small inputs.
example : clean_text "  a \t b\n\nc " = "a b c" := by decide
example : pySplit "  a \t bb \n c" = ["a", "bb", "c"] := by decide
example : chunk_text ["a", "b", "c", "d", "e"] 2 1 =
    some ["a b", "b c", "c d", "d e", "e"] := by decide
example : chunk_text [] 2 1 = some [] := by decide
example : chunk_text ["a", "b", "c", "d", "e"] 10 8 =
    some ["a b c d e", "c d e", "e"] := by decide
example : chunk_text ["a"] 2 2 = none := by decide
example : composeContext [⟨"A"⟩, ⟨"B"⟩, ⟨"C"⟩] = "A\n\nB\n\nC" := by decide

end RagPipeline
